import Mathlib

/-!
# http-iso: request handlers of `main.go`

A shallow embedding of the two HTTP handlers of `main.go`, `ipxeHandler`
(the iPXE boot script) and `isoHandler` (path traversal of the ISO tree and
the rendering of the node it reaches), together with the pieces of the Go
standard library they call (`strings.Split`, `path.Join`, `path.Clean`,
`http.Error`, `http.NotFound`, `io.Copy`).

Go strings and byte slices are byte sequences, modelled as `List UInt8`.
-/

namespace HttpIso

/-! ## Bytes and string literals -/

/-- Go `string` / `[]byte`: a sequence of bytes. -/
abbrev Bytes := List UInt8

/-- The bytes of a string literal of the source (Go stores literals as UTF-8). -/
def str (s : String) : Bytes := s.toUTF8.data.toList

/-- The byte `'/'`. -/
def slash : UInt8 := 47

/-- The byte `'.'`. -/
def dot : UInt8 := 46

/-- The byte `','`. -/
def comma : UInt8 := 44

/-! ## `strings.Split` -/

/-- Go `strings.Split(s, sep)` for a one-byte separator: the substrings of `s`
between the occurrences of `sep`; one more element than there are separators,
so `Split "" sep = [""]`. -/
def Split (s : Bytes) (sep : UInt8) : List Bytes :=
  match s with
  | [] => [[]]
  | c :: cs =>
    if c = sep then [] :: Split cs sep
    else
      match Split cs sep with
      | [] => [[c]]
      | seg :: rest => (c :: seg) :: rest

/-! ## `http.ResponseWriter` -/

/-- The observable state of an `http.ResponseWriter`: the header map, the
status code once the header has been written (`none` before), and the body
bytes written so far. -/
structure ResponseWriter where
  header : List (String × String)
  status : Option Nat
  body : Bytes
deriving DecidableEq

/-- The writer a handler is called with: nothing set, nothing written. -/
def ResponseWriter.fresh : ResponseWriter := ⟨[], none, []⟩

/-- Go `w.Header().Set(key, value)`: replaces the values of `key`. -/
def ResponseWriter.Set (w : ResponseWriter) (key value : String) : ResponseWriter :=
  { w with header := w.header.filter (fun kv => kv.1 != key) ++ [(key, value)] }

/-- Go `w.WriteHeader(code)`: only the first call fixes the status. -/
def ResponseWriter.WriteHeader (w : ResponseWriter) (code : Nat) : ResponseWriter :=
  match w.status with
  | none => { w with status := some code }
  | some _ => w

/-- Go `w.Write(data)`: writes the header with status 200 if it has not been
written yet, then appends `data` to the body. `fmt.Fprint(w, ..)` and
`fmt.Fprintf(w, ..)` are one `Write` of the formatted bytes. -/
def ResponseWriter.Write (w : ResponseWriter) (data : Bytes) : ResponseWriter :=
  let w1 := w.WriteHeader 200
  { w1 with body := w1.body ++ data }

/-- The status the server sends when the handler returns: the one written,
or 200 when the handler returned without writing a header. -/
def ResponseWriter.statusCode (w : ResponseWriter) : Nat := w.status.getD 200

/-- Go `http.Error(w, error, code)`: sets the plain-text headers, writes the
header with `code` and prints the error text and a newline. -/
def Error (w : ResponseWriter) (error : Bytes) (code : Nat) : ResponseWriter :=
  let w1 := w.Set "Content-Type" "text/plain; charset=utf-8"
  let w2 := w1.Set "X-Content-Type-Options" "nosniff"
  let w3 := w2.WriteHeader code
  w3.Write (error ++ str "\n")

/-- Go `http.NotFound(w, req)`: `http.Error(w, "404 page not found", 404)`. -/
def NotFound (w : ResponseWriter) : ResponseWriter :=
  Error w (str "404 page not found") 404

/-- An `io.Reader` read to its end: the bytes it yields, and the error that
ends the stream (`none` for a plain end of file). -/
structure Reader where
  data : Bytes
  err : Option String
deriving DecidableEq

/-- Go `io.Copy(w, r)`: copies what `r` yields to `w` until `r` ends, one
`Write` per chunk read and none when `r` yields nothing; returns the writer
and the error `r` ended with. -/
def ioCopy (w : ResponseWriter) (r : Reader) : ResponseWriter × Option String :=
  (if r.data = [] then w else w.Write r.data, r.err)

/-! ## Requests, configuration, handler outcomes -/

/-- The fields of `*http.Request` the handlers can see: the method,
`req.URL.Path` and `req.Host`. -/
structure Request where
  Method : Bytes
  Path : Bytes
  Host : Bytes
deriving DecidableEq

/-- The global boot configuration of `main.go`, set once by `main`. -/
structure Config where
  kernelFile : Bytes
  initrdFiles : List Bytes
  kernelParams : Bytes
deriving DecidableEq

/-- How a call of a handler ends: it returns, leaving the response writer in
a state, or it calls `log.Fatalf`, which prints the message and exits the
process with status 1. -/
inductive Outcome where
  | responded (w : ResponseWriter)
  | fatal (msg : String)
deriving DecidableEq

/-! ## `ipxeHandler` -/

/-- The body of the `for _, initrd := range initrdFiles` loop of `ipxeHandler`. -/
def initrdStep (host : Bytes) (w : ResponseWriter) (initrd : Bytes) : ResponseWriter :=
  let parts := Split initrd comma
  if parts.length = 1 then
    w.Write (str "initrd http://" ++ host ++ parts.getD 0 [] ++ str "\n")
  else
    w.Write (str "initrd http://" ++ host ++ parts.getD 0 [] ++ str " " ++ parts.getD 1 [] ++ str "\n")

/-- The handler `ipxeHandler(w, req)` with the globals `kernelFile`, `initrdFiles`,
`kernelParams` passed as `cfg`. -/
def ipxeHandler (cfg : Config) (req : Request) (w : ResponseWriter) : Outcome :=
  if cfg.kernelFile = [] ∨ cfg.initrdFiles.length = 0 then
    .responded (NotFound w)
  else
    let w1 := w.Write (str "#!ipxe\nkernel http://" ++ req.Host ++ cfg.kernelFile ++ str " "
      ++ cfg.kernelParams ++ str "\n")
    let w2 := cfg.initrdFiles.foldl (initrdStep req.Host) w1
    .responded (w2.Write (str "boot"))

/-! ## `path.Clean` and `path.Join` -/

/-- The backtracking of the `..` case of `path.Clean`, started after
`out.w--` at `w`:
`for out.w > dotdot && out.index(out.w) != '/' \x7b out.w-- \x7d`; the new
`out.w`. -/
def backtrack (out : Bytes) (dotdot : Nat) : Nat → Nat
  | 0 => 0
  | w + 1 =>
    if w + 1 > dotdot ∧ out.get? (w + 1) ≠ some slash then backtrack out dotdot w
    else w + 1

/-- The `for r < n` loop of `path.Clean`: `path` is the unread input
`path[r:]`, `out` the bytes written so far (`lazybuf` only delays allocating
them), `dotdot` as in the source. Every round reads at least one byte, so
fuel equal to the length of the input is enough. -/
def cleanLoop (rooted : Bool) : Nat → Bytes → Bytes → Nat → Bytes
  | 0, _, out, _ => out
  | fuel + 1, path, out, dotdot =>
    match path with
    | [] => out
    | c :: rest =>
      if c = slash then
        -- empty path element
        cleanLoop rooted fuel rest out dotdot
      else if c = dot ∧ (rest = [] ∨ rest.head? = some slash) then
        -- . element
        cleanLoop rooted fuel rest out dotdot
      else if c = dot ∧ rest.head? = some dot ∧
          (rest.tail = [] ∨ rest.tail.head? = some slash) then
        -- .. element: remove to last /
        if out.length > dotdot then
          cleanLoop rooted fuel rest.tail
            (out.take (backtrack out dotdot (out.length - 1))) dotdot
        else if rooted = false then
          let out1 := if out.length > 0 then out ++ [slash] else out
          let out2 := out1 ++ [dot, dot]
          cleanLoop rooted fuel rest.tail out2 out2.length
        else
          cleanLoop rooted fuel rest.tail out dotdot
      else
        -- real path element: add slash if needed, copy element
        let out1 :=
          if (rooted = true ∧ out.length ≠ 1) ∨ (rooted = false ∧ out.length ≠ 0) then
            out ++ [slash]
          else out
        cleanLoop rooted fuel (path.dropWhile (fun b => b != slash))
          (out1 ++ path.takeWhile (fun b => b != slash)) dotdot

/-- Go `path.Clean(path)`: the empty path and an empty result become `.`. -/
def Clean (path : Bytes) : Bytes :=
  if path = [] then str "."
  else
    let rooted : Bool := path.head? = some slash
    let out :=
      if rooted then cleanLoop rooted path.length path.tail [slash] 1
      else cleanLoop rooted path.length path [] 0
    if out.length = 0 then str "." else out

/-- Go `path.Join(elem...)`: the elements joined by `/`, leading empty
elements skipped, then cleaned; the empty string when all are empty. -/
def Join (elem : List Bytes) : Bytes :=
  if (elem.map List.length).sum = 0 then []
  else
    Clean (elem.foldl (fun buf e =>
      if buf.length > 0 ∨ e ≠ [] then
        (if buf.length > 0 then buf ++ [slash] else buf) ++ e
      else buf) [])

/-! ## The ISO tree -/

/-- A node of the ISO tree as the handlers see an `*iso9660.File`: its
`Name()`, its `IsDir()`, the result of `GetChildren()` (`none` when it
returns an error) and what its `Reader()` yields. -/
inductive File where
  | mk (name : Bytes) (isDir : Bool) (children : Option (List File)) (reader : Reader)

/-- The name `f.Name()`. -/
def File.Name : File → Bytes
  | .mk name _ _ _ => name

/-- The flag `f.IsDir()`. -/
def File.IsDir : File → Bool
  | .mk _ isDir _ _ => isDir

/-- The result of `f.GetChildren()`: `none` when it reports an error. -/
def File.GetChildren : File → Option (List File)
  | .mk _ _ children _ => children

/-- The reader `f.Reader()`. -/
def File.Reader : File → Reader
  | .mk _ _ _ reader => reader

/-- The global `isoImage`: what `isoImage.RootDir()` returns. -/
structure Image where
  RootDir : Except String File

/-! ## `isoHandler` -/

/-- The inner loop of `isoHandler`: the first child whose name equals `part`. -/
def findChild (children : List File) (part : Bytes) : Option File :=
  match children with
  | [] => none
  | child :: rest => if child.Name = part then some child else findChild rest part

/-- The `for _, part := range parts` loop of `isoHandler`, started at
`currentFile`. The first component is the node the loop ends at, or `none`
when the loop left the handler through `http.NotFound`; the second lists the
nodes whose `GetChildren` was called, in call order. -/
def traverse (currentFile : File) (parts : List Bytes) : Option File × List File :=
  match parts with
  | [] => (some currentFile, [])
  | part :: rest =>
    if part = [] then traverse currentFile rest
    else
      match currentFile.GetChildren with
      | none => (none, [currentFile])
      | some children =>
        match findChild children part with
        | none => (none, [currentFile])
        | some child =>
          let r := traverse child rest
          (r.1, currentFile :: r.2)

/-- One entry of the directory listing, as `isoHandler` formats it. -/
def listEntry (reqPath : Bytes) (child : File) : Bytes :=
  str "<li><a href=\"" ++ Join [str "/", reqPath, child.Name] ++ str "\">" ++ child.Name
    ++ str "</a></li>"

/-- The part of `isoHandler` after the traversal loop, from
`if currentFile.IsDir()` to the end: the directory listing of `currentFile`,
a server error when its children cannot be enumerated, or a copy of its
bytes. -/
def render (reqPath : Bytes) (currentFile : File) (w : ResponseWriter) : ResponseWriter :=
  if currentFile.IsDir then
    match currentFile.GetChildren with
    | none => Error w (str "Failed to get directory children") 500
    | some children =>
      let w1 := w.Set "Content-Type" "text/html; charset=utf-8"
      let w2 := w1.Write (str "<html><body><ul>")
      let w3 := children.foldl (fun acc child => acc.Write (listEntry reqPath child)) w2
      w3.Write (str "</ul></body></html>")
  else
    (ioCopy w currentFile.Reader).1

/-- The handler `isoHandler(w, req)` with the global `isoImage` passed as an argument. -/
def isoHandler (isoImage : Image) (req : Request) (w : ResponseWriter) : Outcome :=
  let reqPath := req.Path
  match isoImage.RootDir with
  | .error err => .fatal ("Failed to get root directory: " ++ err)
  | .ok root =>
    let parts := (Split reqPath slash).drop 1
    match (traverse root parts).1 with
    | none => .responded (NotFound w)
    | some currentFile => .responded (render reqPath currentFile w)

/-! ## Notions of the specification -/

/-- The bytes one round of the `initrd` loop of `ipxeHandler` writes. -/
def initrdLine (host initrd : Bytes) : Bytes :=
  (initrdStep host .fresh initrd).body

/-- The non-empty `/`-separated segments of a request path, in order. -/
def segments (p : Bytes) : List Bytes :=
  (Split p slash).filter (fun seg => seg ≠ [])

/-- The relation `Reaches node segs target`: `target` is reached from `node` by following
exactly the segments `segs`, in order, each step taking a child of the
current node whose name equals the segment. -/
inductive Reaches : File → List Bytes → File → Prop
  | here (node : File) : Reaches node [] node
  | step (node child target : File) (children : List File) (seg : Bytes) (rest : List Bytes) :
      node.GetChildren = some children → child ∈ children → child.Name = seg →
      Reaches child rest target → Reaches node (seg :: rest) target

/-- A name that is non-empty, is neither `.` nor `..` and contains no `/`. -/
def goodName (name : Bytes) : Bool :=
  name ≠ [] && name ≠ [dot] && name ≠ [dot, dot] && !(name.contains slash)

mutual

/-- Every node below `f` has a good name that no sibling shares. -/
def File.wellNamed : File → Bool
  | .mk _ _ none _ => true
  | .mk _ _ (some children) _ =>
    decide ((children.map File.Name).Nodup) && wellNamedList children

/-- Every node of the list has a good name and well-named descendants. -/
def wellNamedList : List File → Bool
  | [] => true
  | child :: rest => goodName child.Name && child.wellNamed && wellNamedList rest

end

/-- The path `/` + s1 + `/` + s2 + .. of the segments s1, s2, ..; the path
`/` when there is none. -/
def rootedPath (segs : List Bytes) : Bytes :=
  if segs = [] then [slash] else (segs.map (fun seg => slash :: seg)).flatten

/-- The first comma-separated field of an `initrd` entry: the bytes before
its first comma. -/
def firstField (entry : Bytes) : Bytes :=
  entry.takeWhile (fun b => b != comma)

/-- The second comma-separated field of an `initrd` entry: the bytes after
its first comma, up to the next comma or the end. -/
def secondField (entry : Bytes) : Bytes :=
  ((entry.dropWhile (fun b => b != comma)).drop 1).takeWhile (fun b => b != comma)

/-- The `initrd` line of an entry in words: the URL of the entry when it has
no comma, else the URL of its first field, a space and its second field;
further fields do not appear. -/
def scriptInitrdLine (host entry : Bytes) : Bytes :=
  if comma ∈ entry then
    str "initrd http://" ++ host ++ firstField entry ++ str " " ++ secondField entry ++ str "\n"
  else
    str "initrd http://" ++ host ++ entry ++ str "\n"

/-! ## Example inputs -/

/-- The boot configuration of the boot-script scenario of the specification. -/
def exampleConfig : Config :=
  ⟨str "/vmlinuz", [str "/initrd.img,main"], str "console=ttyS0"⟩

/-- A boot configuration whose one `initrd` entry has three comma-separated
fields. -/
def extraFieldConfig : Config :=
  ⟨str "/vmlinuz", [str "/initrd.img,main,extra"], str "console=ttyS0"⟩

/-- A request for the boot script sent to the host `10.0.0.5:8080`. -/
def exampleBootRequest : Request := ⟨str "GET", str "/boot.ipxe", str "10.0.0.5:8080"⟩

/-- A file `c` with five bytes of content. -/
def fileC : File := .mk (str "c") false none ⟨str "hello", none⟩

/-- An empty file `b`. -/
def fileB : File := .mk (str "b") false none ⟨[], none⟩

/-- A directory `a` that holds `c` and has no child named `b`. -/
def dirA : File := .mk (str "a") true (some [fileC]) ⟨[], none⟩

/-- A directory `locked` whose children cannot be enumerated. -/
def dirLocked : File := .mk (str "locked") true none ⟨[], none⟩

/-- A root directory holding `a`, `b` and `locked`. -/
def exampleRoot : File := .mk [0] true (some [dirA, fileB, dirLocked]) ⟨[], none⟩

/-- An image whose root lookup succeeds with `exampleRoot`. -/
def exampleImage : Image := ⟨.ok exampleRoot⟩

/-- An image whose root lookup fails. -/
def brokenImage : Image := ⟨.error "no primary volumes found"⟩

/-- A `GET` request for `path`. -/
def getRequest (path : String) : Request := ⟨str "GET", str path, str "10.0.0.5:8080"⟩

/-! ## Lemmas: the response writer -/

theorem Write_body (w : ResponseWriter) (data : Bytes) :
    (w.Write data).body = w.body ++ data := by
  unfold ResponseWriter.Write ResponseWriter.WriteHeader
  cases h : w.status <;> simp

theorem Write_status (w : ResponseWriter) (data : Bytes) :
    (w.Write data).status = some (w.status.getD 200) := by
  unfold ResponseWriter.Write ResponseWriter.WriteHeader
  cases h : w.status <;> simp [h]

theorem Error_fresh (error : Bytes) (code : Nat) :
    (Error .fresh error code).status = some code ∧
      (Error .fresh error code).body = error ++ str "\n" := by
  constructor <;> rfl

theorem foldl_Write_body {α : Type} (f : α → Bytes) (l : List α) (w : ResponseWriter) :
    (l.foldl (fun acc x => acc.Write (f x)) w).body = w.body ++ (l.map f).flatten := by
  induction l generalizing w with
  | nil => simp
  | cons x xs ih => simp [ih, Write_body, List.append_assoc]

theorem foldl_Write_status {α : Type} (f : α → Bytes) (l : List α) (w : ResponseWriter)
    (code : Nat) (h : w.status = some code) :
    (l.foldl (fun acc x => acc.Write (f x)) w).status = some code := by
  induction l generalizing w with
  | nil => simpa using h
  | cons x xs ih =>
    simp only [List.foldl_cons]
    apply ih
    rw [Write_status, h]
    rfl

/-! ## Lemmas: `strings.Split` -/

theorem Split_ne_nil (s : Bytes) (sep : UInt8) : Split s sep ≠ [] := by
  induction s with
  | nil => simp [Split]
  | cons c cs ih =>
    unfold Split
    split
    · simp
    · split <;> simp

theorem Split_cons_sep (s : Bytes) (sep : UInt8) : Split (sep :: s) sep = [] :: Split s sep := by
  simp [Split]

theorem Split_not_mem (s : Bytes) (sep : UInt8) (h : sep ∉ s) : Split s sep = [s] := by
  induction s with
  | nil => simp [Split]
  | cons c cs ih =>
    simp only [List.mem_cons, not_or] at h
    have hc : ¬ c = sep := fun e => h.1 e.symm
    rw [Split, if_neg hc, ih h.2]

theorem Split_append (a b : Bytes) (sep : UInt8) (h : sep ∉ a) :
    Split (a ++ sep :: b) sep = a :: Split b sep := by
  induction a with
  | nil => simp [Split]
  | cons c cs ih =>
    simp only [List.mem_cons, not_or] at h
    have hc : ¬ c = sep := fun e => h.1 e.symm
    rw [List.cons_append, Split, if_neg hc, ih h.2]

/-! ## `ipxeHandler` -/

theorem initrdStep_eq (host : Bytes) (w : ResponseWriter) (initrd : Bytes) :
    initrdStep host w initrd = w.Write (initrdLine host initrd) := by
  unfold initrdLine initrdStep
  simp only []
  split <;> simp [Write_body, ResponseWriter.fresh]

theorem initrdLine_plain (host entry : Bytes) (h : comma ∉ entry) :
    initrdLine host entry = str "initrd http://" ++ host ++ entry ++ str "\n" := by
  unfold initrdLine initrdStep
  simp [Split_not_mem entry comma h, Write_body, ResponseWriter.fresh]

theorem initrdLine_labelled (host path label : Bytes) (hp : comma ∉ path)
    (hl : comma ∉ label) :
    initrdLine host (path ++ str "," ++ label)
      = str "initrd http://" ++ host ++ path ++ str " " ++ label ++ str "\n" := by
  have hs : str "," = [comma] := by decide
  unfold initrdLine initrdStep
  rw [hs, List.append_assoc, List.singleton_append, Split_append path label comma hp,
    Split_not_mem label comma hl]
  simp [Write_body, ResponseWriter.fresh]

theorem ipxeHandler_set (cfg : Config) (req : Request)
    (hk : cfg.kernelFile ≠ []) (hi : cfg.initrdFiles ≠ []) :
    ∃ w, ipxeHandler cfg req .fresh = .responded w ∧ w.status = some 200 ∧
      w.body = str "#!ipxe\n" ++ (str "kernel http://" ++ req.Host ++ cfg.kernelFile ++ str " "
        ++ cfg.kernelParams ++ str "\n")
        ++ (cfg.initrdFiles.map (initrdLine req.Host)).flatten ++ str "boot" := by
  have hlen : ¬ (cfg.kernelFile = [] ∨ cfg.initrdFiles.length = 0) := by
    simp [hk, hi]
  have hstep : initrdStep req.Host = fun acc x => acc.Write (initrdLine req.Host x) := by
    funext acc x
    exact initrdStep_eq _ _ _
  have hlit : str "#!ipxe\nkernel http://" = str "#!ipxe\n" ++ str "kernel http://" := by decide
  refine ⟨_, by rw [ipxeHandler, if_neg hlen], ?_, ?_⟩
  · rw [Write_status, hstep, foldl_Write_status _ _ _ 200]
    · rfl
    · rw [Write_status]; rfl
  · rw [Write_body, hstep, foldl_Write_body, Write_body, hlit]
    simp [ResponseWriter.fresh, List.append_assoc]

/-- C2: `ipxeHandler` answers not-found, with only the not-found text as
body, exactly when `kernelFile` is empty or `initrdFiles` is empty; in every
other case it answers 200 with a body that starts with the script header;
and two requests with the same host get the same response. -/
theorem ipxeHandler_notFound_iff (cfg : Config) (req : Request) :
    ((ipxeHandler cfg req .fresh = .responded (NotFound .fresh))
        ↔ (cfg.kernelFile = [] ∨ cfg.initrdFiles = []))
    ∧ (NotFound .fresh).status = some 404
    ∧ (NotFound .fresh).body = str "404 page not found\n"
    ∧ (¬ (cfg.kernelFile = [] ∨ cfg.initrdFiles = []) →
        ∃ w rest, ipxeHandler cfg req .fresh = .responded w ∧ w.status = some 200 ∧
          w.body = str "#!ipxe\nkernel http://" ++ rest)
    ∧ (∀ req2 : Request, req2.Host = req.Host →
        ipxeHandler cfg req2 .fresh = ipxeHandler cfg req .fresh) := by
  have hset : ¬ (cfg.kernelFile = [] ∨ cfg.initrdFiles = []) →
      ∃ w rest, ipxeHandler cfg req .fresh = .responded w ∧ w.status = some 200 ∧
        w.body = str "#!ipxe\nkernel http://" ++ rest := by
    intro h
    rw [not_or] at h
    obtain ⟨w, hw, hst, hb⟩ := ipxeHandler_set cfg req h.1 h.2
    have hlit : str "#!ipxe\nkernel http://" = str "#!ipxe\n" ++ str "kernel http://" := by
      decide
    refine ⟨w, req.Host ++ cfg.kernelFile ++ str " " ++ cfg.kernelParams ++ str "\n"
      ++ (cfg.initrdFiles.map (initrdLine req.Host)).flatten ++ str "boot", hw, hst, ?_⟩
    rw [hb, hlit]
    simp only [List.append_assoc]
  refine ⟨⟨?_, ?_⟩, rfl, by decide, hset, ?_⟩
  · intro h
    by_contra hne
    obtain ⟨w, _, hw, hst, _⟩ := hset hne
    rw [hw] at h
    have h2 : w = NotFound .fresh := by injection h
    rw [h2] at hst
    have h404 : (NotFound ResponseWriter.fresh).status = some 404 := rfl
    rw [h404] at hst
    simp at hst
  · intro h
    have hlen : cfg.kernelFile = [] ∨ cfg.initrdFiles.length = 0 := by
      rcases h with h | h
      · exact Or.inl h
      · exact Or.inr (by simp [h])
    rw [ipxeHandler, if_pos hlen]
  · intro req2 h2
    unfold ipxeHandler
    rw [h2]

/-- The first element of a split is what stands before the first separator,
and the others are the split of what stands after it. -/
theorem Split_eq (s : Bytes) (sep : UInt8) :
    Split s sep = s.takeWhile (fun b => b != sep)
      :: (if sep ∈ s then Split ((s.dropWhile (fun b => b != sep)).drop 1) sep else []) := by
  induction s with
  | nil => simp [Split]
  | cons c cs ih =>
    by_cases hc : c = sep
    · subst hc
      rw [Split_cons_sep]
      simp [List.takeWhile_cons, List.dropWhile_cons]
    · have hmem : sep ∈ c :: cs ↔ sep ∈ cs := by
        rw [List.mem_cons]
        constructor
        · rintro (h | h)
          · exact absurd h.symm hc
          · exact h
        · exact Or.inr
      rw [Split, if_neg hc, ih]
      by_cases hs : sep ∈ cs
      · rw [if_pos hs, if_pos (hmem.mpr hs)]
        simp [List.takeWhile_cons, List.dropWhile_cons, hc]
      · rw [if_neg hs, if_neg (fun h => hs (hmem.mp h))]
        simp [List.takeWhile_cons, hc]

/-- The bytes a round of the `initrd` loop writes are the line in words. -/
theorem initrdLine_eq (host entry : Bytes) :
    initrdLine host entry = scriptInitrdLine host entry := by
  by_cases h : comma ∈ entry
  · unfold scriptInitrdLine
    rw [if_pos h]
    unfold initrdLine initrdStep firstField secondField
    rw [Split_eq entry comma, if_pos h,
      Split_eq ((entry.dropWhile (fun b => b != comma)).drop 1) comma]
    simp [Write_body, ResponseWriter.fresh]
  · unfold scriptInitrdLine
    rw [if_neg h]
    exact initrdLine_plain host entry h

theorem takeWhile_append_comma (a b : Bytes) (ha : comma ∉ a) :
    (a ++ comma :: b).takeWhile (fun x => x != comma) = a
      ∧ (a ++ comma :: b).dropWhile (fun x => x != comma) = comma :: b := by
  induction a with
  | nil => simp [List.takeWhile_cons, List.dropWhile_cons]
  | cons c cs ih =>
    simp only [List.mem_cons, not_or] at ha
    have hc : ¬ c = comma := fun e => ha.1 e.symm
    obtain ⟨h1, h2⟩ := ih ha.2
    constructor
    · simp [List.takeWhile_cons, hc, h1]
    · simp [List.dropWhile_cons, hc, h2]

theorem takeWhile_no_comma (a : Bytes) (ha : comma ∉ a) :
    a.takeWhile (fun x => x != comma) = a := by
  rw [List.takeWhile_eq_self_iff]
  intro x hx
  have hne : x ≠ comma := fun e => ha (e ▸ hx)
  simpa using hne

/-- C3 (as amended): with a non-empty `kernelFile` and a non-empty
`initrdFiles`, the body `ipxeHandler` writes is the line `#!ipxe`, the line
`kernel http://` + host + kernelFile + space + kernelParams, one line per
entry of `initrdFiles` in order, and `boot`; the line of an entry without a
comma is `initrd http://` + host + entry, and the line of any other entry is
`initrd http://` + host + first field + space + second field, the fields
being separated by commas and those after the second dropped; so an entry
`path,label` gives `initrd http://` + host + path + space + label. -/
theorem ipxeHandler_script (cfg : Config) (req : Request)
    (hk : cfg.kernelFile ≠ []) (hi : cfg.initrdFiles ≠ []) :
    ∃ w : ResponseWriter,
      ipxeHandler cfg req .fresh = .responded w ∧
      w.body = str "#!ipxe\n"
        ++ (str "kernel http://" ++ req.Host ++ cfg.kernelFile ++ str " " ++ cfg.kernelParams
            ++ str "\n")
        ++ (cfg.initrdFiles.map (scriptInitrdLine req.Host)).flatten ++ str "boot" ∧
      (∀ entry : Bytes, comma ∉ entry →
        scriptInitrdLine req.Host entry
          = str "initrd http://" ++ req.Host ++ entry ++ str "\n") ∧
      (∀ path label : Bytes, comma ∉ path → comma ∉ label →
        scriptInitrdLine req.Host (path ++ str "," ++ label)
          = str "initrd http://" ++ req.Host ++ path ++ str " " ++ label ++ str "\n") ∧
      (∀ first second more : Bytes, comma ∉ first → comma ∉ second →
        scriptInitrdLine req.Host (first ++ str "," ++ second ++ str "," ++ more)
          = str "initrd http://" ++ req.Host ++ first ++ str " " ++ second ++ str "\n") := by
  have hs : str "," = [comma] := by decide
  obtain ⟨w, hw, _, hb⟩ := ipxeHandler_set cfg req hk hi
  have hmap : cfg.initrdFiles.map (initrdLine req.Host)
      = cfg.initrdFiles.map (scriptInitrdLine req.Host) := by
    apply List.map_congr_left
    intro entry _
    exact initrdLine_eq req.Host entry
  rw [hmap] at hb
  refine ⟨w, hw, hb, ?_, ?_, ?_⟩
  · intro entry h
    unfold scriptInitrdLine
    rw [if_neg h]
  · intro path label hp hl
    rw [← initrdLine_eq]
    exact initrdLine_labelled req.Host path label hp hl
  · intro first second more hf hsec
    have hmem : comma ∈ first ++ str "," ++ second ++ str "," ++ more := by
      rw [hs]; simp
    have hshape : first ++ str "," ++ second ++ str "," ++ more
        = first ++ comma :: (second ++ comma :: more) := by
      rw [hs]; simp
    obtain ⟨h1, h2⟩ := takeWhile_append_comma first (second ++ comma :: more) hf
    obtain ⟨h3, _⟩ := takeWhile_append_comma second more hsec
    unfold scriptInitrdLine firstField secondField
    rw [if_pos hmem, hshape, h1, h2, List.drop_one, List.tail_cons, h3]

/-- C3, scenario: kernel `/vmlinuz`, parameters `console=ttyS0`, one initrd
`/initrd.img,main` and host `10.0.0.5:8080` give exactly the four-line
script of the specification. -/
theorem ipxeHandler_script_witness :
    ∃ w, ipxeHandler exampleConfig exampleBootRequest .fresh = .responded w ∧
      w.body = str ("#!ipxe\nkernel http://10.0.0.5:8080/vmlinuz console=ttyS0\n"
        ++ "initrd http://10.0.0.5:8080/initrd.img main\nboot") := by
  obtain ⟨w, hw, hb, _, _, _⟩ :=
    ipxeHandler_script exampleConfig exampleBootRequest (by decide) (by decide)
  refine ⟨w, hw, ?_⟩
  rw [hb]
  decide

/-- C3 fails for an entry with more than two fields: for the entry
`/initrd.img,main,extra` the handler writes the line of `/initrd.img` and
`main` and drops `extra`, so the body is the script of no reading of the
entry as a path and a label separated by a comma, nor the script of the
entry without a label. -/
theorem ipxeHandler_extra_field_counterexample :
    ∃ w, ipxeHandler extraFieldConfig exampleBootRequest .fresh = .responded w ∧
      w.body = str ("#!ipxe\nkernel http://10.0.0.5:8080/vmlinuz console=ttyS0\n"
        ++ "initrd http://10.0.0.5:8080/initrd.img main\nboot") ∧
      (∀ path label : Bytes, str "/initrd.img,main,extra" = path ++ str "," ++ label →
        w.body ≠ str "#!ipxe\nkernel http://10.0.0.5:8080/vmlinuz console=ttyS0\n"
          ++ (str "initrd http://10.0.0.5:8080" ++ path ++ str " " ++ label ++ str "\n")
          ++ str "boot") ∧
      w.body ≠ str ("#!ipxe\nkernel http://10.0.0.5:8080/vmlinuz console=ttyS0\n"
        ++ "initrd http://10.0.0.5:8080/initrd.img,main,extra\nboot") := by
  obtain ⟨w, hw, _, hset⟩ :=
    ipxeHandler_set extraFieldConfig exampleBootRequest (by decide) (by decide)
  have hbody : w.body = str ("#!ipxe\nkernel http://10.0.0.5:8080/vmlinuz console=ttyS0\n"
      ++ "initrd http://10.0.0.5:8080/initrd.img main\nboot") := by
    rw [hset]
    decide
  refine ⟨w, hw, hbody, ?_, ?_⟩
  swap
  · rw [hbody]
    decide
  intro path label hentry hb
  rw [hbody] at hb
  have h1 := congrArg List.length hentry
  have h2 := congrArg List.length hb
  have l0 : (str "/initrd.img,main,extra").length = 22 := by decide
  have l1 : (str ",").length = 1 := by decide
  have l2 : (str ("#!ipxe\nkernel http://10.0.0.5:8080/vmlinuz console=ttyS0\n"
        ++ "initrd http://10.0.0.5:8080/initrd.img main\nboot")).length = 105 := by decide
  have l3 : (str "#!ipxe\nkernel http://10.0.0.5:8080/vmlinuz console=ttyS0\n").length
      = 57 := by decide
  have l4 : (str "initrd http://10.0.0.5:8080").length = 27 := by decide
  have l5 : (str " ").length = 1 := by decide
  have l6 : (str "\n").length = 1 := by decide
  have l7 : (str "boot").length = 4 := by decide
  simp only [List.length_append, l0, l1] at h1
  simp only [List.length_append, l2, l3, l4, l5, l6, l7] at h2
  omega

/-! ## Lemmas: `path.Clean` -/

theorem dropWhile_elem (c : UInt8) (rest : Bytes) (hc : ¬ c = slash) :
    (c :: rest).dropWhile (fun b => b != slash) = rest.dropWhile (fun b => b != slash) := by
  simp [List.dropWhile_cons, hc]

theorem takeWhile_elem (c : UInt8) (rest : Bytes) (hc : ¬ c = slash) :
    (c :: rest).takeWhile (fun b => b != slash) = c :: rest.takeWhile (fun b => b != slash) := by
  simp [List.takeWhile_cons, hc]

theorem dropWhile_length_le (path : Bytes) :
    (path.dropWhile (fun b => b != slash)).length ≤ path.length :=
  (List.dropWhile_suffix _).length_le

theorem cleanLoop_nil (rooted : Bool) (fuel : Nat) (out : Bytes) (dotdot : Nat) :
    cleanLoop rooted fuel [] out dotdot = out := by
  cases fuel <;> simp [cleanLoop]

/-- Fuel beyond the length of the unread input does not change the result of
the loop of `path.Clean`. -/
theorem cleanLoop_fuel (rooted : Bool) :
    ∀ (f1 f2 : Nat) (path out : Bytes) (dotdot : Nat),
      path.length ≤ f1 → path.length ≤ f2 →
      cleanLoop rooted f1 path out dotdot = cleanLoop rooted f2 path out dotdot := by
  intro f1
  induction f1 with
  | zero =>
    intro f2 path out dotdot h1 _
    have hnil : path = [] := List.length_eq_zero.mp (Nat.le_zero.mp h1)
    subst hnil
    rw [cleanLoop_nil, cleanLoop_nil]
  | succ f1 ih =>
    intro f2 path out dotdot h1 h2
    cases path with
    | nil => rw [cleanLoop_nil, cleanLoop_nil]
    | cons c rest =>
      cases f2 with
      | zero => simp at h2
      | succ f2 =>
        have hr1 : rest.length ≤ f1 := by simpa using h1
        have hr2 : rest.length ≤ f2 := by simpa using h2
        have ht1 : rest.tail.length ≤ f1 := by rw [List.length_tail]; omega
        have ht2 : rest.tail.length ≤ f2 := by rw [List.length_tail]; omega
        simp only [cleanLoop]
        by_cases hc : c = slash
        · simp only [hc, if_true]
          exact ih f2 rest out dotdot hr1 hr2
        · have hd1 : ((c :: rest).dropWhile (fun b => b != slash)).length ≤ f1 := by
            rw [dropWhile_elem c rest hc]
            exact le_trans (dropWhile_length_le rest) hr1
          have hd2 : ((c :: rest).dropWhile (fun b => b != slash)).length ≤ f2 := by
            rw [dropWhile_elem c rest hc]
            exact le_trans (dropWhile_length_le rest) hr2
          simp only [hc, if_false]
          split_ifs <;> first
            | exact ih f2 _ _ _ hr1 hr2
            | exact ih f2 _ _ _ ht1 ht2
            | exact ih f2 _ _ _ hd1 hd2

/-- Leading slashes of the unread input are skipped without a change of the
output. -/
theorem cleanLoop_slashes (rooted : Bool) (p rest out : Bytes) (dotdot : Nat)
    (hp : ∀ b ∈ p, b = slash) :
    ∀ fuel, (p ++ rest).length ≤ fuel →
      cleanLoop rooted fuel (p ++ rest) out dotdot
        = cleanLoop rooted rest.length rest out dotdot := by
  induction p with
  | nil =>
    intro fuel h
    exact cleanLoop_fuel rooted fuel rest.length rest out dotdot (by simpa using h) le_rfl
  | cons c cs ih =>
    intro fuel h
    have hc : c = slash := hp c (List.mem_cons_self _ _)
    cases fuel with
    | zero => simp at h
    | succ fuel =>
      have h2 : (cs ++ rest).length ≤ fuel := by simpa using h
      rw [List.cons_append]
      simp only [cleanLoop, hc, if_true]
      exact ih (fun b hb => hp b (List.mem_cons_of_mem _ hb)) fuel h2

theorem Join_root (p name : Bytes) :
    Join [str "/", p, name] = Clean (slash :: slash :: (p ++ slash :: name)) := by
  have hs : str "/" = [slash] := by decide
  rw [hs]
  simp [Join]

/-- The link target of a child does not change when the request path is
replaced by another path made of slashes only. -/
theorem Join_slashes (p q name : Bytes) (hp : ∀ b ∈ p, b = slash) (hq : ∀ b ∈ q, b = slash) :
    Join [str "/", p, name] = Join [str "/", q, name] := by
  have key : ∀ r : Bytes, (∀ b ∈ r, b = slash) →
      Clean (slash :: slash :: (r ++ slash :: name))
        = (if (cleanLoop true name.length name [slash] 1).length = 0 then str "."
            else cleanLoop true name.length name [slash] 1) := by
    intro r hr
    have hall : ∀ b ∈ slash :: (r ++ [slash]), b = slash := by
      intro b hb
      simp only [List.mem_cons, List.mem_append, List.not_mem_nil, or_false] at hb
      rcases hb with hb | hb | hb
      · exact hb
      · exact hr b hb
      · exact hb
    have hsplit : slash :: (r ++ slash :: name) = (slash :: (r ++ [slash])) ++ name := by simp
    unfold Clean
    simp only [List.head?_cons, List.tail_cons, decide_True, if_true]
    rw [if_neg (by simp), hsplit,
      cleanLoop_slashes true (slash :: (r ++ [slash])) name [slash] 1 hall _ (by simp)]
  rw [Join_root, Join_root, key p hp, key q hq]

/-! ## Lemmas: the traversal loop -/

theorem traverse_filter (cur : File) (parts : List Bytes) :
    traverse cur parts = traverse cur (parts.filter (fun seg => seg ≠ [])) := by
  induction parts generalizing cur with
  | nil => rfl
  | cons part rest ih =>
    by_cases hp : part = []
    · subst hp
      simp only [traverse, if_true]
      rw [ih]
      simp
    · have hf : (part :: rest).filter (fun seg => seg ≠ [])
          = part :: rest.filter (fun seg => seg ≠ []) := by
        simp [List.filter_cons, hp]
      rw [hf]
      simp only [traverse, if_neg hp]
      cases cur.GetChildren with
      | none => rfl
      | some children =>
        simp only []
        cases findChild children part with
        | none => rfl
        | some child => simp only [ih child]

theorem Split_slashes (p : Bytes) (hp : ∀ b ∈ p, b = slash) :
    ∀ seg ∈ Split p slash, seg = [] := by
  induction p with
  | nil => simp [Split]
  | cons c cs ih =>
    have hc : c = slash := hp c (List.mem_cons_self _ _)
    subst hc
    rw [Split_cons_sep]
    intro seg hseg
    rcases List.mem_cons.mp hseg with h | h
    · exact h
    · exact ih (fun b hb => hp b (List.mem_cons_of_mem _ hb)) seg h

theorem traverse_empty_parts (cur : File) (parts : List Bytes)
    (h : ∀ seg ∈ parts, seg = []) : traverse cur parts = (some cur, []) := by
  rw [traverse_filter]
  have hf : parts.filter (fun seg => seg ≠ []) = [] := by
    rw [List.filter_eq_nil_iff]
    intro seg hseg
    simp [h seg hseg]
  rw [hf]
  rfl

theorem findChild_some (children : List File) (part : Bytes) (child : File)
    (h : findChild children part = some child) : child ∈ children ∧ child.Name = part := by
  induction children with
  | nil => simp [findChild] at h
  | cons c cs ih =>
    unfold findChild at h
    by_cases hc : c.Name = part
    · rw [if_pos hc] at h
      have hcc : c = child := by injection h
      subst hcc
      exact ⟨List.mem_cons_self _ _, hc⟩
    · rw [if_neg hc] at h
      exact ⟨List.mem_cons_of_mem _ (ih h).1, (ih h).2⟩

theorem findChild_none (children : List File) (part : Bytes)
    (h : ∀ c ∈ children, c.Name ≠ part) : findChild children part = none := by
  induction children with
  | nil => rfl
  | cons c cs ih =>
    unfold findChild
    rw [if_neg (h c (List.mem_cons_self _ _))]
    exact ih (fun x hx => h x (List.mem_cons_of_mem _ hx))

theorem traverse_nil (cur : File) : traverse cur [] = (some cur, []) := rfl

theorem traverse_cons (cur : File) (part : Bytes) (rest : List Bytes) (hp : part ≠ []) :
    traverse cur (part :: rest)
      = match cur.GetChildren with
        | none => (none, [cur])
        | some children =>
          match findChild children part with
          | none => (none, [cur])
          | some child => ((traverse child rest).1, cur :: (traverse child rest).2) := by
  simp only [traverse, if_neg hp]

/-- The traversal of a list of parts is the traversal of its first parts
followed by the traversal of the others from the node reached. -/
theorem traverse_append (cur : File) (pre rest : List Bytes) :
    traverse cur (pre ++ rest)
      = match (traverse cur pre).1 with
        | none => (none, (traverse cur pre).2)
        | some mid => ((traverse mid rest).1, (traverse cur pre).2 ++ (traverse mid rest).2) := by
  induction pre generalizing cur with
  | nil => simp [traverse_nil]
  | cons part more ih =>
    by_cases hp : part = []
    · subst hp
      simp only [List.cons_append, traverse, if_true]
      exact ih cur
    · rw [List.cons_append, traverse_cons _ _ _ hp, traverse_cons _ _ _ hp]
      cases cur.GetChildren with
      | none => rfl
      | some children =>
        simp only []
        cases findChild children part with
        | none => rfl
        | some child =>
          simp only [ih child]
          cases (traverse child more).1 <;> simp

/-- The node a traversal ends at is reached by following the non-empty
parts. -/
theorem traverse_reaches (cur node : File) (parts : List Bytes)
    (h : (traverse cur parts).1 = some node) :
    Reaches cur (parts.filter (fun seg => seg ≠ [])) node := by
  induction parts generalizing cur with
  | nil =>
    rw [traverse_nil] at h
    have hc : cur = node := by injection h
    subst hc
    exact Reaches.here cur
  | cons part rest ih =>
    by_cases hp : part = []
    · subst hp
      simp only [traverse, if_true] at h
      simpa using ih cur h
    · have hf : (part :: rest).filter (fun seg => seg ≠ [])
          = part :: rest.filter (fun seg => seg ≠ []) := by
        simp [List.filter_cons, hp]
      rw [hf]
      rw [traverse_cons _ _ _ hp] at h
      cases hch : cur.GetChildren with
      | none => simp [hch] at h
      | some children =>
        cases hfc : findChild children part with
        | none => simp [hch, hfc] at h
        | some child =>
          simp only [hch, hfc] at h
          obtain ⟨hmem, hname⟩ := findChild_some children part child hfc
          exact Reaches.step cur child node children part _ hch hmem hname (ih child h)

/-- For a request path that is empty or starts with `/`, the non-empty parts
the handler walks are the non-empty segments of the path. -/
theorem parts_segments (p : Bytes) (hp : p = [] ∨ p.head? = some slash) :
    ((Split p slash).drop 1).filter (fun seg => seg ≠ []) = segments p := by
  unfold segments
  rcases hp with hp | hp
  · subst hp
    simp [Split]
  · cases p with
    | nil => simp at hp
    | cons c cs =>
      have hc : c = slash := by simpa using hp
      subst hc
      rw [Split_cons_sep]
      simp

theorem traverse_parts (root : File) (p : Bytes) (hp : p = [] ∨ p.head? = some slash) :
    traverse root ((Split p slash).drop 1) = traverse root (segments p) := by
  rw [traverse_filter, parts_segments p hp]

/-! ## Lemmas: segments and cleaned paths -/

theorem Split_append_sep (a b : Bytes) (sep : UInt8) :
    Split (a ++ sep :: b) sep = Split a sep ++ Split b sep := by
  induction a with
  | nil => simp [Split]
  | cons c cs ih =>
    by_cases hc : c = sep
    · subst hc
      rw [List.cons_append, Split_cons_sep, Split_cons_sep, ih]
      rfl
    · rw [List.cons_append, Split, if_neg hc, ih, Split, if_neg hc]
      cases hs : Split cs sep with
      | nil => exact absurd hs (Split_ne_nil cs sep)
      | cons seg more => rfl

theorem segments_nil : segments [] = [] := by decide

theorem segments_cons_slash (b : Bytes) : segments (slash :: b) = segments b := by
  unfold segments
  rw [Split_cons_sep]
  simp

theorem segments_append (a b : Bytes) :
    segments (a ++ slash :: b) = segments a ++ segments b := by
  unfold segments
  rw [Split_append_sep, List.filter_append]

theorem segments_elem (seg : Bytes) (hs : slash ∉ seg) (hne : seg ≠ []) :
    segments seg = [seg] := by
  unfold segments
  rw [Split_not_mem seg slash hs]
  simp [List.filter_cons, hne]

theorem segments_elem_append (seg rest : Bytes) (hs : slash ∉ seg) (hne : seg ≠ [])
    (hrest : rest = [] ∨ rest.head? = some slash) :
    segments (seg ++ rest) = seg :: segments rest := by
  rcases hrest with h | h
  · subst h
    rw [List.append_nil, segments_nil, segments_elem seg hs hne]
  · cases rest with
    | nil => simp at h
    | cons c cs =>
      have hc : c = slash := by simpa using h
      subst hc
      rw [segments_append, segments_cons_slash, segments_elem seg hs hne]
      rfl

theorem takeWhile_no_slash (l : Bytes) : slash ∉ l.takeWhile (fun b => b != slash) := by
  intro h
  have := List.mem_takeWhile_imp h
  simp at this

theorem dropWhile_head (l : Bytes) :
    l.dropWhile (fun b => b != slash) = [] ∨
      (l.dropWhile (fun b => b != slash)).head? = some slash := by
  induction l with
  | nil => simp
  | cons c cs ih =>
    by_cases hc : c = slash
    · right
      simp [List.dropWhile_cons, hc]
    · rw [dropWhile_elem c cs hc]
      exact ih

/-- The segments of an input that starts with a byte other than `/`: its
first element, then the segments of what follows the element. -/
theorem segments_first (c : UInt8) (rest : Bytes) (hc : ¬ c = slash) :
    segments (c :: rest)
      = (c :: rest).takeWhile (fun b => b != slash)
        :: segments ((c :: rest).dropWhile (fun b => b != slash)) := by
  have hsplit : c :: rest = (c :: rest).takeWhile (fun b => b != slash)
      ++ (c :: rest).dropWhile (fun b => b != slash) :=
    (List.takeWhile_append_dropWhile _ _).symm
  have hne : (c :: rest).takeWhile (fun b => b != slash) ≠ [] := by
    rw [takeWhile_elem c rest hc]
    simp
  conv_lhs => rw [hsplit]
  exact segments_elem_append _ _ (takeWhile_no_slash _) hne (dropWhile_head _)

theorem rootedPath_nil : rootedPath [] = [slash] := rfl

theorem rootedPath_cons (seg : Bytes) (segs : List Bytes) :
    rootedPath (seg :: segs)
      = slash :: seg ++ ((segs.map (fun x => slash :: x)).flatten) := by
  simp [rootedPath]

theorem rootedPath_head (segs : List Bytes) : (rootedPath segs).head? = some slash := by
  cases segs with
  | nil => rfl
  | cons seg more => rw [rootedPath_cons]; rfl

/-- Appending an element to the output of the loop of `path.Clean`, as the
default case does for a rooted path. -/
theorem rootedPath_snoc (done : List Bytes) (elem : Bytes) (hdone : ∀ x ∈ done, x ≠ []) :
    (if (true = true ∧ (rootedPath done).length ≠ 1)
        ∨ (true = false ∧ (rootedPath done).length ≠ 0)
      then rootedPath done ++ [slash] else rootedPath done) ++ elem
      = rootedPath (done ++ [elem]) := by
  cases done with
  | nil => simp [rootedPath]
  | cons d ds =>
    have hd : d ≠ [] := hdone d (List.mem_cons_self _ _)
    have hlen : (rootedPath (d :: ds)).length ≠ 1 := by
      rw [rootedPath_cons]
      cases d with
      | nil => exact absurd rfl hd
      | cons x xs => simp
    rw [if_pos (Or.inl ⟨rfl, hlen⟩)]
    simp [rootedPath]

theorem segments_rooted_aux (segs : List Bytes) (h : ∀ x ∈ segs, x ≠ [] ∧ slash ∉ x) :
    segments ((segs.map (fun x => slash :: x)).flatten) = segs := by
  induction segs with
  | nil => exact segments_nil
  | cons seg more ih =>
    have hseg := h seg (List.mem_cons_self _ _)
    have hmore := ih (fun x hx => h x (List.mem_cons_of_mem _ hx))
    have hhead : (more.map (fun x => slash :: x)).flatten = [] ∨
        ((more.map (fun x => slash :: x)).flatten).head? = some slash := by
      cases more with
      | nil => left; rfl
      | cons m ms => right; rfl
    rw [List.map_cons, List.flatten_cons, List.cons_append, segments_cons_slash,
      segments_elem_append seg _ hseg.2 hseg.1 hhead, hmore]

/-- The non-empty segments of the rooted path of a list of non-empty,
slash-free segments are these segments. -/
theorem segments_rootedPath (segs : List Bytes) (h : ∀ x ∈ segs, x ≠ [] ∧ slash ∉ x) :
    segments (rootedPath segs) = segs := by
  cases segs with
  | nil => decide
  | cons seg more =>
    have := segments_rooted_aux (seg :: more) h
    simpa [rootedPath] using this

/-- The loop of `path.Clean` on a rooted path none of whose segments is `.`
or `..`: the output grows by the segments of the unread input. -/
theorem cleanLoop_segments :
    ∀ (fuel : Nat) (path : Bytes) (done : List Bytes),
      path.length ≤ fuel → (∀ x ∈ done, x ≠ []) →
      (∀ x ∈ segments path, x ≠ [dot] ∧ x ≠ [dot, dot]) →
      cleanLoop true fuel path (rootedPath done) 1 = rootedPath (done ++ segments path) := by
  intro fuel
  induction fuel with
  | zero =>
    intro path done hlen _ _
    have hnil : path = [] := List.length_eq_zero.mp (Nat.le_zero.mp hlen)
    subst hnil
    rw [cleanLoop_nil, segments_nil, List.append_nil]
  | succ fuel ih =>
    intro path done hlen hdone hsegs
    cases path with
    | nil => rw [cleanLoop_nil, segments_nil, List.append_nil]
    | cons c rest =>
      have hr : rest.length ≤ fuel := by simpa using hlen
      by_cases hc : c = slash
      · subst hc
        rw [segments_cons_slash] at hsegs ⊢
        simp only [cleanLoop, if_true]
        exact ih rest done hr hdone hsegs
      · have hfirst := segments_first c rest hc
        have helem := takeWhile_elem c rest hc
        have hgood := hsegs _ (by rw [hfirst]; exact List.mem_cons_self _ _)
        have h2 : ¬ (c = dot ∧ (rest = [] ∨ rest.head? = some slash)) := by
          rintro ⟨hd, hrest⟩
          apply hgood.1
          rw [helem, hd]
          rcases hrest with h | h
          · subst h; rfl
          · cases rest with
            | nil => simp at h
            | cons x xs =>
              have hx : x = slash := by simpa using h
              subst hx
              simp [List.takeWhile_cons]
        have h3 : ¬ (c = dot ∧ rest.head? = some dot ∧
            (rest.tail = [] ∨ rest.tail.head? = some slash)) := by
          rintro ⟨hd, hh, htail⟩
          apply hgood.2
          rw [helem, hd]
          cases rest with
          | nil => simp at hh
          | cons x xs =>
            have hx : x = dot := by simpa using hh
            subst hx
            have hds : ¬ dot = slash := by decide
            rw [takeWhile_elem dot xs hds]
            rcases htail with h | h
            · have hxs : xs = [] := by simpa using h
              subst hxs
              rfl
            · cases xs with
              | nil => simp at h
              | cons y ys =>
                have hy : y = slash := by simpa using h
                subst hy
                simp [List.takeWhile_cons]
        have hd : ((c :: rest).dropWhile (fun b => b != slash)).length ≤ fuel := by
          rw [dropWhile_elem c rest hc]
          exact le_trans (dropWhile_length_le rest) hr
        have hdone2 : ∀ x ∈ done ++ [(c :: rest).takeWhile (fun b => b != slash)], x ≠ [] := by
          intro x hx
          rcases List.mem_append.mp hx with h | h
          · exact hdone x h
          · rw [List.mem_singleton.mp h, helem]
            simp
        have hsegs2 : ∀ x ∈ segments ((c :: rest).dropWhile (fun b => b != slash)),
            x ≠ [dot] ∧ x ≠ [dot, dot] := by
          intro x hx
          exact hsegs x (by rw [hfirst]; exact List.mem_cons_of_mem _ hx)
        have hstep : cleanLoop true (fuel + 1) (c :: rest) (rootedPath done) 1
            = cleanLoop true fuel ((c :: rest).dropWhile (fun b => b != slash))
                ((if (true = true ∧ (rootedPath done).length ≠ 1)
                    ∨ (true = false ∧ (rootedPath done).length ≠ 0)
                  then rootedPath done ++ [slash] else rootedPath done)
                  ++ (c :: rest).takeWhile (fun b => b != slash)) 1 := by
          simp only [cleanLoop, if_neg hc, if_neg h2, if_neg h3]
        rw [hstep, rootedPath_snoc done _ hdone, ih _ _ hd hdone2 hsegs2, hfirst,
          List.append_assoc]
        rfl

theorem rootedPath_length (segs : List Bytes) : (rootedPath segs).length ≠ 0 := by
  cases segs with
  | nil => decide
  | cons seg more => rw [rootedPath_cons]; simp

/-- The result of `path.Clean` on a rooted path none of whose segments is `.` or `..`: the
segments joined by single slashes after a leading slash. -/
theorem Clean_rooted (path : Bytes)
    (hsegs : ∀ x ∈ segments path, x ≠ [dot] ∧ x ≠ [dot, dot]) :
    Clean (slash :: path) = rootedPath (segments path) := by
  have hloop := cleanLoop_segments (slash :: path).length path [] (by simp) (by simp) hsegs
  rw [rootedPath_nil, List.nil_append] at hloop
  unfold Clean
  simp only [List.head?_cons, List.tail_cons, decide_True, if_true]
  rw [if_neg (by simp), hloop, if_neg (rootedPath_length _)]

theorem goodName_spec (name : Bytes) (h : goodName name = true) :
    name ≠ [] ∧ name ≠ [dot] ∧ name ≠ [dot, dot] ∧ slash ∉ name := by
  simpa [goodName, and_assoc] using h

/-- The link target of a child with a good name, under a request path whose
segments have good names: the rooted path of these segments and the name. -/
theorem Join_good (p name : Bytes) (hp : ∀ x ∈ segments p, goodName x = true)
    (hname : goodName name = true) :
    Join [str "/", p, name] = rootedPath (segments p ++ [name]) := by
  obtain ⟨hne, hd, hdd, hs⟩ := goodName_spec name hname
  have hseg : segments (slash :: (p ++ slash :: name)) = segments p ++ [name] := by
    rw [segments_cons_slash, segments_append, segments_elem name hs hne]
  rw [Join_root, Clean_rooted, hseg]
  rw [hseg]
  intro x hx
  rcases List.mem_append.mp hx with h | h
  · obtain ⟨_, h1, h2, _⟩ := goodName_spec x (hp x h)
    exact ⟨h1, h2⟩
  · rw [List.mem_singleton.mp h]
    exact ⟨hd, hdd⟩

/-! ## Lemmas: well-named trees -/

theorem wellNamedList_mem (children : List File) (h : wellNamedList children = true) :
    ∀ c ∈ children, goodName c.Name = true ∧ c.wellNamed = true := by
  induction children with
  | nil => simp
  | cons x xs ih =>
    rw [wellNamedList, Bool.and_eq_true, Bool.and_eq_true] at h
    intro c hc
    rcases List.mem_cons.mp hc with hcx | hcx
    · subst hcx
      exact h.1
    · exact ih h.2 c hcx

theorem wellNamed_children (f : File) (children : List File) (h : f.wellNamed = true)
    (hch : f.GetChildren = some children) :
    (children.map File.Name).Nodup ∧
      ∀ c ∈ children, goodName c.Name = true ∧ c.wellNamed = true := by
  cases f with
  | mk name isDir ch reader =>
    have hc : ch = some children := hch
    subst hc
    rw [File.wellNamed, Bool.and_eq_true] at h
    exact ⟨of_decide_eq_true h.1, wellNamedList_mem children h.2⟩

theorem findChild_nodup (children : List File) (c : File) (hc : c ∈ children)
    (hnd : (children.map File.Name).Nodup) : findChild children c.Name = some c := by
  induction children with
  | nil => simp at hc
  | cons x xs ih =>
    rw [List.map_cons, List.nodup_cons] at hnd
    unfold findChild
    by_cases hx : x.Name = c.Name
    · rw [if_pos hx]
      rcases List.mem_cons.mp hc with h | h
      · rw [h]
      · exact absurd (hx ▸ List.mem_map_of_mem File.Name h) hnd.1
    · rw [if_neg hx]
      rcases List.mem_cons.mp hc with h | h
      · exact absurd (by rw [h]) hx
      · exact ih h hnd.2

/-- In a well-named tree the non-empty parts of a traversal that ends at a
node are good names, and the node is the root of a well-named tree. -/
theorem traverse_wellNamed (root node : File) (parts : List Bytes)
    (hwn : root.wellNamed = true) (h : (traverse root parts).1 = some node) :
    (∀ x ∈ parts.filter (fun seg => seg ≠ []), goodName x = true)
      ∧ node.wellNamed = true := by
  induction parts generalizing root with
  | nil =>
    rw [traverse_nil] at h
    have hc : root = node := by injection h
    subst hc
    exact ⟨by simp, hwn⟩
  | cons part rest ih =>
    by_cases hp : part = []
    · subst hp
      simp only [traverse, if_true] at h
      simpa using ih root hwn h
    · have hf : (part :: rest).filter (fun seg => seg ≠ [])
          = part :: rest.filter (fun seg => seg ≠ []) := by
        simp [List.filter_cons, hp]
      rw [hf]
      rw [traverse_cons _ _ _ hp] at h
      cases hch : root.GetChildren with
      | none => simp [hch] at h
      | some children =>
        cases hfc : findChild children part with
        | none => simp [hch, hfc] at h
        | some child =>
          simp only [hch, hfc] at h
          obtain ⟨hmem, hname⟩ := findChild_some children part child hfc
          obtain ⟨hgood, hcwn⟩ := (wellNamed_children root children hwn hch).2 child hmem
          obtain ⟨hrest, hnode⟩ := ih child hcwn h
          refine ⟨?_, hnode⟩
          intro x hx
          rcases List.mem_cons.mp hx with hxp | hxr
          · rw [hxp, ← hname]
            exact hgood
          · exact hrest x hxr

/-! ## `isoHandler`: rendering -/

theorem isoHandler_resolved (isoImage : Image) (req : Request) (root node : File)
    (hroot : isoImage.RootDir = .ok root)
    (hres : (traverse root ((Split req.Path slash).drop 1)).1 = some node) :
    isoHandler isoImage req .fresh = .responded (render req.Path node .fresh) := by
  unfold isoHandler
  simp only [hroot, hres]

theorem isoHandler_unresolved (isoImage : Image) (req : Request) (root : File)
    (hroot : isoImage.RootDir = .ok root)
    (hres : (traverse root ((Split req.Path slash).drop 1)).1 = none) :
    isoHandler isoImage req .fresh = .responded (NotFound .fresh) := by
  unfold isoHandler
  simp only [hroot, hres]

theorem render_listing (reqPath : Bytes) (d : File) (children : List File)
    (hdir : d.IsDir = true) (hch : d.GetChildren = some children) :
    (render reqPath d .fresh).body = str "<html><body><ul>"
        ++ (children.map (listEntry reqPath)).flatten ++ str "</ul></body></html>"
      ∧ (render reqPath d .fresh).status = some 200 := by
  unfold render
  simp only [hdir, hch, if_true]
  constructor
  · rw [Write_body, foldl_Write_body, Write_body]
    rfl
  · rw [Write_status, foldl_Write_status _ _ _ 200]
    · rfl
    · rw [Write_status]; rfl

/-- C4: when the request path resolves to a directory whose children
enumerate as `children`, the body is `<html><body><ul>`, then one entry per
child in enumeration order, then `</ul></body></html>`; the entry of a child
is a link with the child's name as text and
`path.Join("/", reqPath, name)` as target. -/
theorem isoHandler_directory_listing (isoImage : Image) (req : Request) (root d : File)
    (children : List File)
    (hroot : isoImage.RootDir = .ok root)
    (hres : (traverse root ((Split req.Path slash).drop 1)).1 = some d)
    (hdir : d.IsDir = true) (hch : d.GetChildren = some children) :
    ∃ w, isoHandler isoImage req .fresh = .responded w ∧ w.status = some 200 ∧
      w.body = str "<html><body><ul>"
        ++ (children.map (fun child =>
              str "<li><a href=\"" ++ Join [str "/", req.Path, child.Name] ++ str "\">"
                ++ child.Name ++ str "</a></li>")).flatten
        ++ str "</ul></body></html>" := by
  refine ⟨_, isoHandler_resolved isoImage req root d hroot hres, ?_, ?_⟩
  · exact (render_listing req.Path d children hdir hch).2
  · exact (render_listing req.Path d children hdir hch).1

/-- C4, example: the listing of the directory `/a` of the example tree has
the one entry of its child `c`, linked to `/a/c`. -/
theorem isoHandler_directory_listing_witness :
    ∃ w, isoHandler exampleImage (getRequest "/a") .fresh = .responded w ∧
      w.status = some 200 ∧
      w.body = str "<html><body><ul><li><a href=\"/a/c\">c</a></li></ul></body></html>" := by
  obtain ⟨w, hw, hst, hb⟩ := isoHandler_directory_listing exampleImage (getRequest "/a") exampleRoot dirA
    [fileC] rfl rfl rfl rfl
  refine ⟨w, hw, hst, ?_⟩
  rw [hb]
  decide

/-- C5: when the request path resolves to a file, the body is exactly the
bytes the file's reader yields, and the status is 200. -/
theorem isoHandler_file (isoImage : Image) (req : Request) (root f : File)
    (hroot : isoImage.RootDir = .ok root)
    (hres : (traverse root ((Split req.Path slash).drop 1)).1 = some f)
    (hfile : f.IsDir = false) :
    ∃ w, isoHandler isoImage req .fresh = .responded w ∧
      w.body = f.Reader.data ∧ w.statusCode = 200 := by
  refine ⟨_, isoHandler_resolved isoImage req root f hroot hres, ?_, ?_⟩
  · unfold render ioCopy
    simp only [hfile]
    by_cases hd : f.Reader.data = []
    · simp [hd, ResponseWriter.fresh]
    · simp [hd, Write_body, ResponseWriter.fresh]
  · unfold render ioCopy
    simp only [hfile]
    by_cases hd : f.Reader.data = []
    · simp [hd, ResponseWriter.fresh, ResponseWriter.statusCode]
    · simp [hd, ResponseWriter.statusCode, Write_status, ResponseWriter.fresh]

/-- C5, examples: `/a/c` yields the five bytes of `c`, and the empty file
`/b` yields an empty body. -/
theorem isoHandler_file_witness :
    (∃ w, isoHandler exampleImage (getRequest "/a/c") .fresh = .responded w ∧
      w.body = str "hello" ∧ w.statusCode = 200)
    ∧ (∃ w, isoHandler exampleImage (getRequest "/b") .fresh = .responded w ∧
      w.body = [] ∧ w.statusCode = 200) :=
  ⟨isoHandler_file exampleImage (getRequest "/a/c") exampleRoot fileC rfl rfl rfl,
   isoHandler_file exampleImage (getRequest "/b") exampleRoot fileB rfl rfl rfl⟩

/-- C7: when the request path resolves to a directory whose children cannot
be enumerated, the response is the server error 500 with the error text as
its whole body. -/
theorem isoHandler_listing_failure (isoImage : Image) (req : Request) (root d : File)
    (hroot : isoImage.RootDir = .ok root)
    (hres : (traverse root ((Split req.Path slash).drop 1)).1 = some d)
    (hdir : d.IsDir = true) (hch : d.GetChildren = none) :
    ∃ w, isoHandler isoImage req .fresh = .responded w ∧ w.status = some 500 ∧
      w.status ≠ some 404 ∧ w.body = str "Failed to get directory children\n" := by
  refine ⟨_, isoHandler_resolved isoImage req root d hroot hres, ?_, ?_, ?_⟩
  · unfold render
    simp only [hdir, hch, if_true]
    rfl
  · unfold render
    simp only [hdir, hch, if_true]
    decide
  · unfold render
    simp only [hdir, hch, if_true]
    decide

/-- C7, example: the directory `/locked` of the example tree cannot be
enumerated, and the request for it is answered with 500. -/
theorem isoHandler_listing_failure_witness :
    ∃ w, isoHandler exampleImage (getRequest "/locked") .fresh = .responded w ∧
      w.status = some 500 ∧ w.status ≠ some 404 ∧
      w.body = str "Failed to get directory children\n" :=
  isoHandler_listing_failure exampleImage (getRequest "/locked") exampleRoot dirLocked
    rfl rfl rfl rfl

theorem render_slashes (p q : Bytes) (root : File)
    (hp : ∀ b ∈ p, b = slash) (hq : ∀ b ∈ q, b = slash) :
    render p root .fresh = render q root .fresh := by
  have hentry : listEntry p = listEntry q := by
    funext child
    unfold listEntry
    rw [Join_slashes p q child.Name hp hq]
  unfold render
  rw [hentry]

/-- C9: a request path made of `/` characters only (so also the empty path,
`/` and `//`) resolves to the root without a call of `GetChildren` during
the traversal, and the response is the rendering of the root, the same as
for the path `/`. -/
theorem isoHandler_root (isoImage : Image) (req : Request) (root : File)
    (hroot : isoImage.RootDir = .ok root) (hp : ∀ b ∈ req.Path, b = slash) :
    traverse root ((Split req.Path slash).drop 1) = (some root, [])
    ∧ isoHandler isoImage req .fresh = .responded (render (str "/") root .fresh)
    ∧ isoHandler isoImage req .fresh
        = isoHandler isoImage ⟨req.Method, str "/", req.Host⟩ .fresh := by
  have hall : ∀ q : Bytes, (∀ b ∈ q, b = slash) →
      traverse root ((Split q slash).drop 1) = (some root, []) := by
    intro q hq
    apply traverse_empty_parts
    intro seg hseg
    exact Split_slashes q hq seg (List.mem_of_mem_drop hseg)
  have hone : ∀ b ∈ str "/", b = slash := by decide
  have hresp : ∀ r : Request, (∀ b ∈ r.Path, b = slash) →
      isoHandler isoImage r .fresh = .responded (render (str "/") root .fresh) := by
    intro r hr
    rw [isoHandler_resolved isoImage r root root hroot (by rw [hall r.Path hr]),
      render_slashes r.Path (str "/") root hr hone]
  refine ⟨hall req.Path hp, hresp req hp, ?_⟩
  rw [hresp req hp, hresp ⟨req.Method, str "/", req.Host⟩ hone]

/-- C9, examples: the empty path, `/` and `//` all get the listing of the
example root, with targets `/a`, `/b`, `/locked`. -/
theorem isoHandler_root_witness :
    isoHandler exampleImage (getRequest "") .fresh
      = .responded (render (str "/") exampleRoot .fresh)
    ∧ isoHandler exampleImage (getRequest "/") .fresh
      = .responded (render (str "/") exampleRoot .fresh)
    ∧ isoHandler exampleImage (getRequest "//") .fresh
      = .responded (render (str "/") exampleRoot .fresh)
    ∧ traverse exampleRoot ((Split (getRequest "//").Path slash).drop 1)
      = (some exampleRoot, [])
    ∧ (render (str "/") exampleRoot .fresh).body
      = str ("<html><body><ul><li><a href=\"/a\">a</a></li><li><a href=\"/b\">b</a></li>"
          ++ "<li><a href=\"/locked\">locked</a></li></ul></body></html>") :=
  ⟨(isoHandler_root exampleImage (getRequest "") exampleRoot rfl (by decide)).2.1,
   (isoHandler_root exampleImage (getRequest "/") exampleRoot rfl (by decide)).2.1,
   (isoHandler_root exampleImage (getRequest "//") exampleRoot rfl (by decide)).2.1,
   (isoHandler_root exampleImage (getRequest "//") exampleRoot rfl (by decide)).1,
   by decide⟩

/-! ## `isoHandler`: traversal -/

/-- C1 (as amended): for a request path that is empty or starts with `/`,
the node the traversal ends at, when it does not end in not-found, is
reached from the root by following exactly the non-empty segments of the
path; and two such paths with the same non-empty segments have the same
traversal. -/
theorem traverse_segments (root : File) (p : Bytes) (hp : p = [] ∨ p.head? = some slash) :
    (∀ node, (traverse root ((Split p slash).drop 1)).1 = some node →
        Reaches root (segments p) node)
    ∧ (∀ q : Bytes, (q = [] ∨ q.head? = some slash) → segments q = segments p →
        traverse root ((Split q slash).drop 1) = traverse root ((Split p slash).drop 1)) := by
  constructor
  · intro node h
    rw [← parts_segments p hp]
    exact traverse_reaches root node _ h
  · intro q hq hseg
    rw [traverse_parts root q hq, traverse_parts root p hp, hseg]

/-- C1, example: `//a//c/` and `/a/c` have the same traversal in the example
tree, and it ends at the file `c`, reached by the segments `a`, `c`. -/
theorem traverse_segments_witness :
    Reaches exampleRoot [str "a", str "c"] fileC
    ∧ traverse exampleRoot ((Split (str "/a/c") slash).drop 1)
        = traverse exampleRoot ((Split (str "//a//c/") slash).drop 1) :=
  ⟨(traverse_segments exampleRoot (str "//a//c/") (by decide)).1 fileC rfl,
   (traverse_segments exampleRoot (str "//a//c/") (by decide)).2 (str "/a/c") (by decide)
     (by decide)⟩

/-- C1 fails for a path without a leading `/`: for the path `b` the handler
drops the first part, so the traversal ends at the root, which is not the
node reached by the segment `b`; and `/b`, with the same non-empty segments,
ends at the file `b`. -/
theorem traverse_relative_path_counterexample :
    (traverse exampleRoot ((Split (str "b") slash).drop 1)).1 = some exampleRoot
    ∧ segments (str "b") = [str "b"]
    ∧ ¬ Reaches exampleRoot (segments (str "b")) exampleRoot
    ∧ segments (str "b") = segments (str "/b")
    ∧ (traverse exampleRoot ((Split (str "/b") slash).drop 1)).1 = some fileB
    ∧ (traverse exampleRoot ((Split (str "b") slash).drop 1)).1
        ≠ (traverse exampleRoot ((Split (str "/b") slash).drop 1)).1 := by
  have hseg : segments (str "b") = [str "b"] := by decide
  have hne : exampleRoot.Name ≠ str "b" := by decide
  refine ⟨rfl, hseg, ?_, by decide, rfl, ?_⟩
  · rw [hseg]
    intro h
    cases h with
    | step _ child _ children _ _ hch hmem hname hrest =>
      cases hrest
      exact hne hname
  · intro h
    have h1 : (traverse exampleRoot ((Split (str "b") slash).drop 1)).1 = some exampleRoot := rfl
    have h2 : (traverse exampleRoot ((Split (str "/b") slash).drop 1)).1 = some fileB := rfl
    rw [h1, h2] at h
    have h3 : exampleRoot = fileB := by injection h
    have h4 : exampleRoot.Name = fileB.Name := by rw [h3]
    exact absurd h4 (by decide)

/-- C6 (as amended): for a request path that is empty or starts with `/`,
when the walk of its non-empty segments reaches a node `cur` after the
segments `pre` and the next segment `seg` is the name of no child of `cur`,
or the children of `cur` cannot be enumerated, the response is not-found
with only the not-found text as body, whatever the segments `post` after
`seg` are, and `cur` is the last node whose children the handler asks for. -/
theorem isoHandler_notFound (isoImage : Image) (req : Request) (root cur : File)
    (pre post : List Bytes) (seg : Bytes)
    (hroot : isoImage.RootDir = .ok root)
    (hp : req.Path = [] ∨ req.Path.head? = some slash)
    (hseg : segments req.Path = pre ++ seg :: post)
    (hcur : (traverse root pre).1 = some cur)
    (hfail : cur.GetChildren = none ∨
      ∃ children, cur.GetChildren = some children ∧ ∀ c ∈ children, c.Name ≠ seg) :
    isoHandler isoImage req .fresh = .responded (NotFound .fresh)
    ∧ (NotFound .fresh).status = some 404
    ∧ (NotFound .fresh).body = str "404 page not found\n"
    ∧ (traverse root ((Split req.Path slash).drop 1)).2 = (traverse root pre).2 ++ [cur] := by
  have hne : seg ≠ [] := by
    have hmem : seg ∈ segments req.Path := by rw [hseg]; simp
    unfold segments at hmem
    simpa using (List.mem_filter.mp hmem).2
  have hstop : traverse cur (seg :: post) = (none, [cur]) := by
    rw [traverse_cons _ _ _ hne]
    rcases hfail with h | ⟨children, h, hall⟩
    · rw [h]
    · rw [h]
      simp only [findChild_none children seg hall]
  have htr : traverse root ((Split req.Path slash).drop 1)
      = (none, (traverse root pre).2 ++ [cur]) := by
    rw [traverse_parts root req.Path hp, hseg, traverse_append, hcur]
    simp only [hstop]
  refine ⟨?_, rfl, by decide, ?_⟩
  · exact isoHandler_unresolved isoImage req root hroot (by rw [htr])
  · rw [htr]

/-- C6, scenario: in the example tree the directory `a` has no child `b`, and
the request for `/a/b/c` is answered with not-found. -/
theorem isoHandler_notFound_witness :
    isoHandler exampleImage (getRequest "/a/b/c") .fresh = .responded (NotFound .fresh)
    ∧ (NotFound .fresh).status = some 404
    ∧ (NotFound .fresh).body = str "404 page not found\n"
    ∧ (traverse exampleRoot ((Split (getRequest "/a/b/c").Path slash).drop 1)).2
        = (traverse exampleRoot [str "a"]).2 ++ [dirA] :=
  isoHandler_notFound exampleImage (getRequest "/a/b/c") exampleRoot dirA [str "a"] [str "c"]
    (str "b") rfl (by decide) (by decide) rfl
    (Or.inr ⟨[fileC], rfl, by decide⟩)

/-- C6 fails for a path without a leading `/`: the only segment of the path
`zzz` is the name of no child of the root, yet the handler drops it and
answers 200 with the listing of the root. -/
theorem isoHandler_relative_path_counterexample :
    segments (str "zzz") = [] ++ str "zzz" :: []
    ∧ (traverse exampleRoot []).1 = some exampleRoot
    ∧ (∃ children, exampleRoot.GetChildren = some children ∧
        ∀ c ∈ children, c.Name ≠ str "zzz")
    ∧ isoHandler exampleImage (getRequest "zzz") .fresh
        = .responded (render (str "zzz") exampleRoot .fresh)
    ∧ (render (str "zzz") exampleRoot .fresh).status = some 200
    ∧ isoHandler exampleImage (getRequest "zzz") .fresh ≠ .responded (NotFound .fresh) := by
  refine ⟨by decide, rfl, ⟨[dirA, fileB, dirLocked], rfl, by decide⟩, rfl, by decide, ?_⟩
  decide

/-- C10: in a tree in which every node below the root has a non-empty name
other than `.` and `..`, without `/`, that none of its siblings shares, for a
request path that starts with `/` and resolves to a directory `d`, the link
target `path.Join("/", reqPath, c.Name())` of a child `c` of `d` resolves to
`c`. -/
theorem link_resolves (root d c : File) (children : List File) (reqPath : Bytes)
    (hwn : root.wellNamed = true) (hp : reqPath.head? = some slash)
    (hres : (traverse root ((Split reqPath slash).drop 1)).1 = some d)
    (_hdir : d.IsDir = true) (hch : d.GetChildren = some children) (hc : c ∈ children) :
    (traverse root ((Split (Join [str "/", reqPath, c.Name]) slash).drop 1)).1 = some c := by
  have hres2 : (traverse root (segments reqPath)).1 = some d := by
    rw [← traverse_parts root reqPath (Or.inr hp)]
    exact hres
  obtain ⟨hsegs, hdwn⟩ := traverse_wellNamed root d ((Split reqPath slash).drop 1) hwn hres
  rw [parts_segments reqPath (Or.inr hp)] at hsegs
  obtain ⟨hnd, hall⟩ := wellNamed_children d children hdwn hch
  have hcname := (hall c hc).1
  have hne := (goodName_spec c.Name hcname).1
  have hgood : ∀ x ∈ segments reqPath ++ [c.Name], x ≠ [] ∧ slash ∉ x := by
    intro x hx
    rcases List.mem_append.mp hx with h | h
    · obtain ⟨h1, _, _, h4⟩ := goodName_spec x (hsegs x h)
      exact ⟨h1, h4⟩
    · rw [List.mem_singleton.mp h]
      obtain ⟨h1, _, _, h4⟩ := goodName_spec c.Name hcname
      exact ⟨h1, h4⟩
  rw [Join_good reqPath c.Name hsegs hcname,
    traverse_parts root _ (Or.inr (rootedPath_head _)),
    segments_rootedPath _ hgood, traverse_append, hres2]
  simp only [traverse_cons _ _ _ hne, hch, findChild_nodup children c hc hnd, traverse_nil]

/-- C10, example: in the example tree the link `/a/c` that the listing of
`/a` gives for the child `c` resolves to `c`. -/
theorem link_resolves_witness :
    Join [str "/", str "/a", fileC.Name] = str "/a/c"
    ∧ (traverse exampleRoot ((Split (Join [str "/", str "/a", fileC.Name]) slash).drop 1)).1
        = some fileC :=
  ⟨by decide,
   link_resolves exampleRoot dirA fileC [fileC] (str "/a") (by decide) (by decide) rfl rfl rfl
     (by simp)⟩

/-! ## Process termination -/

/-- C8 (as amended): `ipxeHandler` always returns with a response;
`isoHandler` returns with a response whenever the root lookup succeeds,
whatever child enumeration and reading report, and it ends the process
through `log.Fatalf`, without a response, exactly when the root lookup
fails. -/
theorem handlers_outcome (cfg : Config) (isoImage : Image) (req : Request) :
    (∃ w, ipxeHandler cfg req .fresh = .responded w)
    ∧ ((∃ root w, isoImage.RootDir = .ok root ∧
          isoHandler isoImage req .fresh = .responded w)
      ∨ (∃ err, isoImage.RootDir = .error err ∧
          isoHandler isoImage req .fresh = .fatal ("Failed to get root directory: " ++ err))) := by
  constructor
  · unfold ipxeHandler
    split
    · exact ⟨_, rfl⟩
    · exact ⟨_, rfl⟩
  · cases hroot : isoImage.RootDir with
    | error err =>
      refine Or.inr ⟨err, rfl, ?_⟩
      unfold isoHandler
      simp only [hroot]
    | ok root =>
      cases htr : (traverse root ((Split req.Path slash).drop 1)).1 with
      | none =>
        exact Or.inl ⟨root, _, rfl, isoHandler_unresolved isoImage req root hroot htr⟩
      | some node =>
        exact Or.inl ⟨root, _, rfl, isoHandler_resolved isoImage req root node hroot htr⟩

/-- C8 fails when the root lookup fails: `isoHandler` then calls
`log.Fatalf`, which ends the process, and writes no response. -/
theorem isoHandler_fatal_counterexample :
    isoHandler brokenImage (getRequest "/") .fresh
      = .fatal "Failed to get root directory: no primary volumes found"
    ∧ ∀ w, isoHandler brokenImage (getRequest "/") .fresh ≠ .responded w := by
  constructor
  · rfl
  · intro w h
    have hf : isoHandler brokenImage (getRequest "/") .fresh
        = .fatal "Failed to get root directory: no primary volumes found" := rfl
    rw [hf] at h
    cases h

end HttpIso
